import Mathlib

/-!
Verification development for the one-way self-distillation training script
(`src/experiments/oneway.py`).

Modelling conventions (shallow embedding):
* Floating-point scalars are modelled as rationals (`ℚ`); the special
  value `float(inf)` used to initialise the EMA state is modelled by the
  two-constructor type `FVal` below.
* Tensors of token ids are modelled as `List ℕ`; a vector of scalars as
  `List ℚ`.
* The random draws of the script are made explicit: `torch.randint` start
  offsets become an explicit list of naturals, `dist.Categorical(...).sample()`
  becomes an oracle function `draw : List ℚ → ℕ`, and the two distinct
  process-wide generators (torch vs Python `random`) are modelled in the
  `Rng` section.
* `F.softmax` needs the transcendental `exp`, which has no rational
  counterpart; it is threaded through as an explicit parameter so the
  surrounding control flow stays exactly the source's.
-/

/-! ### The `sample` primitive (oneway.py lines 16-31) -/

/-- First index of a maximal element of the list; models `lnprobs.argmax()`
(for the empty list, where the source errors, it returns 0). -/
def argmaxIdx : List ℚ → ℕ
  | [] => 0
  | [_] => 0
  | x :: y :: rest =>
    let j := argmaxIdx (y :: rest)
    if (y :: rest).getD j 0 ≤ x then 0 else j + 1

/-- Models `F.softmax(v, dim=0)`: exponentiate and normalise.  The
transcendental exponential is passed in as `e`. -/
def softmax (e : ℚ → ℚ) (v : List ℚ) : List ℚ :=
  let ex := v.map e
  ex.map (fun x => x / ex.sum)

/-- Models `sample(lnprobs, temperature)` (oneway.py lines 16-31):
temperature 0 returns the argmax; otherwise the log-probabilities are
divided by the temperature, softmax-normalised and one index is drawn from
the resulting categorical distribution, modelled by the oracle `draw`. -/
def sample (e : ℚ → ℚ) (lnprobs : List ℚ) (temperature : ℚ)
    (draw : List ℚ → ℕ) : ℕ :=
  if temperature = 0 then argmaxIdx lnprobs
  else draw (softmax e (lnprobs.map (fun x => x / temperature)))

/-- Division that signals division by zero, used to make the guardedness of
`lnprobs / temperature` explicit. -/
def divOpt (x y : ℚ) : Option ℚ :=
  if y = 0 then none else some (x / y)

/-- Elementwise checked division of a vector by a scalar. -/
def mapDiv (t : ℚ) : List ℚ → Option (List ℚ)
  | [] => some []
  | x :: xs =>
    match divOpt x t, mapDiv t xs with
    | some y, some ys => some (y :: ys)
    | _, _ => none

/-- `sample` with the division `lnprobs / temperature` made fallible:
returns `none` exactly when that division would divide by zero. -/
def sampleChecked (e : ℚ → ℚ) (lnprobs : List ℚ) (temperature : ℚ)
    (draw : List ℚ → ℕ) : Option ℕ :=
  if temperature = 0 then some (argmaxIdx lnprobs)
  else (mapDiv temperature lnprobs).map (fun scaled => draw (softmax e scaled))

theorem argmaxIdx_lt_length (l : List ℚ) (h : l ≠ []) : argmaxIdx l < l.length := by
  induction l with
  | nil => exact absurd rfl h
  | cons x xs ih =>
    cases xs with
    | nil => simp [argmaxIdx]
    | cons y rest =>
      have hne : (y :: rest) ≠ [] := by simp
      have := ih hne
      unfold argmaxIdx
      dsimp only
      split
      · simp
      · simpa using Nat.succ_lt_succ this

theorem argmaxIdx_is_max (l : List ℚ) (j : ℕ) (hj : j < l.length) :
    l.getD j 0 ≤ l.getD (argmaxIdx l) 0 := by
  induction l generalizing j with
  | nil => simp at hj
  | cons x xs ih =>
    cases xs with
    | nil =>
      cases j with
      | zero => simp [argmaxIdx]
      | succ j => simp at hj
    | cons y rest =>
      unfold argmaxIdx
      dsimp only
      by_cases hle : (y :: rest).getD (argmaxIdx (y :: rest)) 0 ≤ x
      · -- head is at least the max of the tail, so it bounds every entry
        rw [if_pos hle]
        cases j with
        | zero => simp
        | succ j =>
          have hj2 : j < (y :: rest).length := by simpa using hj
          have := ih j hj2
          calc (x :: y :: rest).getD (j + 1) 0 = (y :: rest).getD j 0 := by simp
            _ ≤ (y :: rest).getD (argmaxIdx (y :: rest)) 0 := this
            _ ≤ x := hle
            _ = (x :: y :: rest).getD 0 0 := by simp
      · rw [if_neg hle]
        cases j with
        | zero =>
          have hx : x ≤ (y :: rest).getD (argmaxIdx (y :: rest)) 0 :=
            le_of_not_le hle
          simpa using hx
        | succ j =>
          have hj2 : j < (y :: rest).length := by simpa using hj
          simpa using ih j hj2

/-! ### `sample_batch` (oneway.py lines 46-74)

The call `torch.randint(size=(batch_size,), low=0, high=data.size(0)-length-1)`
draws `batch_size` uniform starts in `[0, data.size(0)-length-1)`.  The draws
are made explicit: `starts` is the drawn list, constrained exactly by the
generator's range in the theorems. -/

/-- Python slice `data[start:stop]` on a token vector. -/
def pySlice (data : List ℕ) (start stop : ℕ) : List ℕ :=
  (data.drop start).take (stop - start)

/-- Models `sample_batch(data, length, batch_size)` given the drawn start
indices: row `r` of the input is `data[starts[r] : starts[r]+length]` and row
`r` of the target is `data[starts[r]+1 : starts[r]+length+1]`. -/
def sample_batch (data : List ℕ) (length : ℕ) (starts : List ℕ) :
    List (List ℕ) × List (List ℕ) :=
  (starts.map (fun s => pySlice data s (s + length)),
   starts.map (fun s => pySlice data (s + 1) (s + length + 1)))

/-! ### `sample_sequence` (oneway.py lines 77-119)

Tensor aliasing matters for the frame claims, so the token tensors live in an
explicit heap: a list of buffers addressed by allocation index.  Each of the
tensor operations the source performs (`seed.detach().clone()` on line 92,
`torch.cat([sequence, c[None]])` on lines 114-116) allocates a fresh buffer
and never writes an existing one, mirroring the out-of-place torch ops. -/

abbrev Buf := List ℕ

abbrev Heap := List Buf

def heapGet (h : Heap) (i : ℕ) : Buf := h.getD i []

def heapAlloc (h : Heap) (b : Buf) : Heap × ℕ := (h ++ [b], h.length)

/-- `seed.detach().clone()`: allocate a fresh copy of the buffer. -/
def detachClone (h : Heap) (i : ℕ) : Heap × ℕ := heapAlloc h (heapGet h i)

/-- `torch.cat([sequence, c[None]], dim=0)`: allocate a fresh buffer holding
the old contents with the token appended. -/
def catToken (h : Heap) (i : ℕ) (c : ℕ) : Heap × ℕ :=
  heapAlloc h (heapGet h i ++ [c])

/-- Python slice `sequence[-max_context:]` (the whole list when
`max_context = 0`, because `l[-0:]` is `l[0:]`). -/
def tailWindow (b : Buf) (max_context : ℕ) : Buf :=
  if max_context = 0 then b else b.drop (b.length - max_context)

/-- The `for _ in range(length)` loop of `sample_sequence`: window the tail,
run the model (`modelOut` gives the final-layer log-probabilities at the last
position, i.e. `model(input[None,:])[3][0,-1,:]`), sample one token, append it
to a freshly allocated buffer.  Returns the final heap and the id of the grown
sequence buffer. -/
def sampleSeqLoop (modelOut : Buf → List ℚ) (e : ℚ → ℚ) (draw : List ℚ → ℕ)
    (max_context : ℕ) (temperature : ℚ) :
    ℕ → Heap → ℕ → Heap × ℕ
  | 0, h, seqId => (h, seqId)
  | n + 1, h, seqId =>
    let input := tailWindow (heapGet h seqId) max_context
    let c := sample e (modelOut input) temperature draw
    let hi := catToken h seqId c
    sampleSeqLoop modelOut e draw max_context temperature n hi.1 hi.2

/-- Models `sample_sequence(model, seed, max_context, length, temperature)`:
clone the seed, grow the clone token by token, and return — as the source
does on line 119 — the id of the ORIGINAL seed buffer, not the grown one. -/
def sample_sequence (modelOut : Buf → List ℚ) (e : ℚ → ℚ) (draw : List ℚ → ℕ)
    (h : Heap) (seedId : ℕ) (max_context : ℕ) (length : ℕ)
    (temperature : ℚ) : Heap × ℕ :=
  let hc := detachClone h seedId
  let hl := sampleSeqLoop modelOut e draw max_context temperature length hc.1 hc.2
  (hl.1, seedId)

/-! ### EMA tracking (oneway.py lines 122-123 and 215, `compute_ema_losses`)

The EMA state is initialised to `[float(inf)] * 4` (line 215); a float that
may be infinite is modelled by `FVal`. -/

/-- A float value that is either finite (a rational) or `float(inf)`. -/
inductive FVal where
  | fin (x : ℚ)
  | inf
deriving DecidableEq, Repr

/-- Models `ema_update(old, new, beta=0.99)` (oneway.py lines 122-123). -/
def ema_update (old new : ℚ) (beta : ℚ := 99 / 100) : ℚ :=
  beta * old + (1 - beta) * new

/-- Modelled from the spec: the per-layer state transition of
`compute_ema_losses` (`former.util`, not under `src/`): blend via
`ema_update` when the stored value is finite, otherwise take the new loss
directly so the initial `inf` never propagates. -/
def emaStep (old : FVal) (loss : ℚ) : FVal :=
  match old with
  | .fin x => .fin (ema_update x loss)
  | .inf => .fin loss

/-- Modelled from the spec: `compute_ema_losses(outputs, target, ema_losses)`
(`former.util`, not under `src/`): computes one cross-entropy loss per layer
(the per-layer loss computation is abstracted as `nll`) and updates each EMA
entry with `emaStep`, returning `(losses, new_ema_losses)`. -/
def compute_ema_losses {L T : Type} (nll : L → T → ℚ) (outputs : List L)
    (target : T) (ema : List FVal) : List ℚ × List FVal :=
  let losses := outputs.map (fun o => nll o target)
  (losses, List.zipWith emaStep ema losses)

/-- Iterating `ema_update` against a constant loss stream `L`, starting
from `x` (used for the convergence claim). -/
def emaIter (x L : ℚ) : ℕ → ℚ
  | 0 => x
  | n + 1 => ema_update (emaIter x L n) L

/-! ### Loss combination (oneway.py lines 240-242, `util.distill_loss`) -/

/-- Arithmetic mean of a list of scalars (`torch.mean` on a stacked vector). -/
def listMean (l : List ℚ) : ℚ := l.sum / l.length

/-- Modelled from the spec: `util.distill_loss(teacher_logits, target,
student_logits_list, gamma)` (`former.util`, not under `src/`): the
per-position negative log-likelihood is abstracted as `nll`; the teacher loss
is the NLL of the target under the teacher logits, each student loss the NLL
under that student's logits, and the combined objective is
`teacher_loss + gamma * mean(student_losses)`.  Returns
`(total_loss, teacher_loss, student_losses)`. -/
def distill_loss {L T : Type} (nll : L → T → ℚ) (teacher_logits : L)
    (target : T) (student_logits_list : List L) (gamma : ℚ) :
    ℚ × ℚ × List ℚ :=
  let teacher_loss := nll teacher_logits target
  let student_losses := student_logits_list.map (fun s => nll s target)
  (teacher_loss + gamma * listMean student_losses, teacher_loss, student_losses)

/-! ### Evaluation cadence (oneway.py line 280) -/

/-- The guard of the periodic evaluation block:
`if i != 0 and (i % test_every == 0 or i == num_batches - 1)`. -/
def runsEval (num_batches test_every i : ℕ) : Bool :=
  i != 0 && (i % test_every == 0 || i == num_batches - 1)

/-- How many times iteration `i` runs the qualitative sampling check, and how
many times it runs the bits-per-byte evaluation: once each when the guard
holds, zero times otherwise (the guarded block calls `sample_sequence` once
and `util.compute_compression` once, lines 289-304). -/
def evalCalls (num_batches test_every i : ℕ) : ℕ × ℕ :=
  if runsEval num_batches test_every i then (1, 1) else (0, 0)

/-! ### Randomness model (oneway.py lines 152-156, 60, 31, 283)

The script uses two distinct process-wide generators: the torch generator
(consumed by `torch.randint` on line 60 and `dist.Categorical(...).sample()`
on line 31) and Python's `random` module (consumed by `random.randint` on
lines 153 and 283).  `torch.manual_seed(seed)` (line 156) reseeds only the
torch generator, is called only in the `seed >= 0` branch, and the program
never calls `random.seed`.  A generator is modelled as a stream `ℕ → ℕ` of
raw draws. -/

inductive RngSource where
  | torchRng
  | pyRandom
deriving DecidableEq, Repr

/-- Source of the batch start offsets (`torch.randint`, line 60). -/
def batchStartsSource : RngSource := .torchRng

/-- Source of categorical sampling (`dist.Categorical(p).sample()`, line 31). -/
def categoricalSource : RngSource := .torchRng

/-- Source of the evaluation-seed index `seedfr` (`random.randint`, line 283). -/
def evalSeedIndexSource : RngSource := .pyRandom

/-- The random draws the loop consumes, with the generator each one uses. -/
def loopDrawSources : List RngSource :=
  [batchStartsSource, categoricalSource, evalSeedIndexSource]

/-- Which generators the startup code seeds: for `seed >= 0` the branch on
line 156 calls `torch.manual_seed(seed)`, seeding the torch generator only;
for `seed < 0` (lines 152-154) a fallback seed is drawn from Python's
`random` and printed, but `torch.manual_seed` is never called with it, and
`random.seed` is called nowhere. -/
def seededAtStart (seed : ℤ) : RngSource → Bool
  | .torchRng => decide (0 ≤ seed)
  | .pyRandom => false

/-- The generator state a run starts its loop with. -/
structure RunRand where
  torchStream : ℕ → ℕ
  pyStream : ℕ → ℕ

/-- Startup seeding (oneway.py lines 152-156): `torchGen s` is the
deterministic torch stream installed by `torch.manual_seed(s)`;
`entropyTorch` / `entropyPy` are the system-entropy states the generators
hold when not explicitly seeded.  Python's `random` is never seeded, and in
the `seed < 0` branch neither generator is. -/
def setupRand (torchGen : ℕ → ℕ → ℕ) (seed : ℤ)
    (entropyTorch entropyPy : ℕ → ℕ) : RunRand :=
  if 0 ≤ seed then ⟨torchGen seed.toNat, entropyPy⟩
  else ⟨entropyTorch, entropyPy⟩

/-- The evaluation-seed index `seedfr = random.randint(0, hi)` (line 283):
the first draw of Python's generator, reduced to the inclusive range. -/
def evalSeedIndex (r : RunRand) (hi : ℕ) : ℕ := r.pyStream 0 % (hi + 1)

/-- The first batch start offset `torch.randint(low=0, high=hi)`: the first
draw of the torch generator, reduced to the exclusive range. -/
def firstBatchStart (r : RunRand) (hi : ℕ) : ℕ := r.torchStream 0 % hi

/-! ### Helper lemmas -/

theorem mapDiv_eq_some (t : ℚ) (ht : t ≠ 0) (l : List ℚ) :
    mapDiv t l = some (l.map (fun x => x / t)) := by
  induction l with
  | nil => rfl
  | cons x xs ih => simp [mapDiv, divOpt, ht, ih]

theorem pySlice_getElem (data : List ℕ) (s len c : ℕ) (hc : c < len) :
    (pySlice data s (s + len))[c]? = data[s + c]? := by
  unfold pySlice
  rw [Nat.add_sub_cancel_left, List.getElem?_take_of_lt hc, List.getElem?_drop]

theorem ema_update_sub (y L : ℚ) : ema_update y L - L = 99 / 100 * (y - L) := by
  unfold ema_update
  ring

theorem ema_update_between (lo hi y L : ℚ) (h1 : lo ≤ y) (h2 : y ≤ hi)
    (h3 : lo ≤ L) (h4 : L ≤ hi) : lo ≤ ema_update y L ∧ ema_update y L ≤ hi := by
  unfold ema_update
  constructor <;> nlinarith

theorem sampleSeqLoop_prefix (mo : Buf → List ℚ) (e : ℚ → ℚ) (d : List ℚ → ℕ)
    (mc : ℕ) (t : ℚ) (n : ℕ) (h : Heap) (i : ℕ) :
    h <+: (sampleSeqLoop mo e d mc t n h i).1 := by
  induction n generalizing h i with
  | zero => exact List.prefix_refl h
  | succ n ih =>
    have step : (sampleSeqLoop mo e d mc t (n + 1) h i).1
        = (sampleSeqLoop mo e d mc t n
            (h ++ [heapGet h i ++ [sample e (mo (tailWindow (heapGet h i) mc)) t d]])
            h.length).1 := rfl
    rw [step]
    exact List.IsPrefix.trans ⟨_, rfl⟩ (ih _ _)

theorem heapGet_of_prefix (h hx : Heap) (hp : h <+: hx) (i : ℕ)
    (hi : i < h.length) : heapGet hx i = heapGet h i := by
  obtain ⟨t, rfl⟩ := hp
  unfold heapGet
  rw [List.getD_eq_getElem?_getD, List.getD_eq_getElem?_getD,
    List.getElem?_append_left hi]

/-! ### Claims -/

/-- Claim C7: for every nonempty log-probability vector, `sample` at
temperature 0 returns the index of the (first) maximum log-probability,
deterministically: the result is independent of the categorical-draw oracle
and of the softmax exponential (no random draw occurs), it is a valid index,
and every entry is bounded by the entry at the returned index. -/
theorem sample_temp0_argmax (lnprobs : List ℚ) (h : lnprobs ≠ [])
    (e1 e2 : ℚ → ℚ) (d1 d2 : List ℚ → ℕ) :
    sample e1 lnprobs 0 d1 = argmaxIdx lnprobs
    ∧ sample e1 lnprobs 0 d1 = sample e2 lnprobs 0 d2
    ∧ sample e1 lnprobs 0 d1 < lnprobs.length
    ∧ ∀ j, j < lnprobs.length →
        lnprobs.getD j 0 ≤ lnprobs.getD (sample e1 lnprobs 0 d1) 0 := by
  have hs : ∀ (e : ℚ → ℚ) (d : List ℚ → ℕ), sample e lnprobs 0 d = argmaxIdx lnprobs := by
    intro e d
    simp [sample]
  refine ⟨hs e1 d1, by rw [hs e1 d1, hs e2 d2], ?_, ?_⟩
  · rw [hs e1 d1]
    exact argmaxIdx_lt_length lnprobs h
  · intro j hj
    rw [hs e1 d1]
    exact argmaxIdx_is_max lnprobs j hj

theorem sample_temp0_argmax_witness :
    sample id [1, 3, 2] 0 (fun _ => 0) = argmaxIdx [1, 3, 2]
    ∧ sample id [1, 3, 2] 0 (fun _ => 0) = sample (fun x => x + 1) [1, 3, 2] 0 (fun _ => 5)
    ∧ sample id [1, 3, 2] 0 (fun _ => 0) < ([1, 3, 2] : List ℚ).length
    ∧ ∀ j, j < ([1, 3, 2] : List ℚ).length →
        ([1, 3, 2] : List ℚ).getD j 0
          ≤ ([1, 3, 2] : List ℚ).getD (sample id [1, 3, 2] 0 (fun _ => 0)) 0 :=
  sample_temp0_argmax [1, 3, 2] (by decide) id (fun x => x + 1) (fun _ => 0) (fun _ => 5)

/-- Claim C10: the division by `temperature` inside `sample` is guarded: the
fallible variant, which returns `none` exactly when the division
`lnprobs / temperature` would divide by zero, in fact always succeeds and
agrees with `sample` — at temperature 0 the argmax branch returns before any
division is reached. -/
theorem sample_division_guarded (e : ℚ → ℚ) (lnprobs : List ℚ)
    (temperature : ℚ) (draw : List ℚ → ℕ) :
    sampleChecked e lnprobs temperature draw
      = some (sample e lnprobs temperature draw) := by
  by_cases ht : temperature = 0
  · simp [sampleChecked, sample, ht]
  · simp [sampleChecked, sample, ht, mapDiv_eq_some temperature ht]

/-- Claim C3: the combined objective returned by `distill_loss` equals
`teacher_loss + gamma * mean(student_losses)` for all inputs, and at
`gamma = 0` it equals the teacher loss exactly, the student terms being
fully excluded. -/
theorem distill_loss_spec {L T : Type} (nll : L → T → ℚ) (tlogits : L)
    (target : T) (slogits : List L) (gamma : ℚ) :
    (distill_loss nll tlogits target slogits gamma).1
      = (distill_loss nll tlogits target slogits gamma).2.1
        + gamma * listMean (distill_loss nll tlogits target slogits gamma).2.2
    ∧ (distill_loss nll tlogits target slogits 0).1
      = (distill_loss nll tlogits target slogits 0).2.1 := by
  constructor
  · rfl
  · simp [distill_loss]

/-- Claim C4: each layer's EMA transition blends with `ema_update` when the
stored value is finite and takes the fresh loss when it is not, so the
initial `inf` never survives an update: every updated entry is finite. -/
theorem compute_ema_losses_spec {L T : Type} (nll : L → T → ℚ)
    (outputs : List L) (target : T) (ema : List FVal) (k : ℕ)
    (hk1 : k < ema.length) (hk2 : k < outputs.length) :
    (∀ x, ema[k]? = some (FVal.fin x) →
        (compute_ema_losses nll outputs target ema).2[k]?
          = some (FVal.fin (ema_update x
              ((compute_ema_losses nll outputs target ema).1.getD k 0))))
    ∧ (ema[k]? = some FVal.inf →
        (compute_ema_losses nll outputs target ema).2[k]?
          = some (FVal.fin ((compute_ema_losses nll outputs target ema).1.getD k 0)))
    ∧ ∃ y, (compute_ema_losses nll outputs target ema).2[k]?
        = some (FVal.fin y) := by
  have hk3 : k < (outputs.map (fun o => nll o target)).length := by
    simpa using hk2
  have hzip : (compute_ema_losses nll outputs target ema).2[k]?
      = some (emaStep ema[k] ((outputs.map (fun o => nll o target))[k])) := by
    unfold compute_ema_losses
    rw [List.getElem?_zipWith]
    rw [List.getElem?_eq_getElem hk1, List.getElem?_eq_getElem hk3]
  have hloss : (compute_ema_losses nll outputs target ema).1.getD k 0
      = (outputs.map (fun o => nll o target))[k] := by
    unfold compute_ema_losses
    exact List.getD_eq_getElem _ _ hk3
  refine ⟨?_, ?_, ?_⟩
  · intro x hx
    rw [List.getElem?_eq_getElem hk1] at hx
    rw [hzip, hloss]
    cases hx2 : ema[k] with
    | fin y =>
      rw [hx2] at hx
      cases hx
      simp [emaStep]
    | inf =>
      rw [hx2] at hx
      cases hx
  · intro hx
    rw [List.getElem?_eq_getElem hk1] at hx
    rw [hzip, hloss]
    cases hx2 : ema[k] with
    | fin y =>
      rw [hx2] at hx
      cases hx
    | inf =>
      simp [emaStep]
  · rw [hzip]
    cases ema[k] with
    | fin y => exact ⟨_, rfl⟩
    | inf => exact ⟨_, rfl⟩

theorem compute_ema_losses_spec_witness :
    ((∀ x, ([FVal.fin 2, FVal.inf] : List FVal)[0]? = some (FVal.fin x) →
        (compute_ema_losses (fun o t => o + t) [3, 5] (1 : ℚ)
          [FVal.fin 2, FVal.inf]).2[0]?
          = some (FVal.fin (ema_update x
              ((compute_ema_losses (fun o t => o + t) [3, 5] (1 : ℚ)
                [FVal.fin 2, FVal.inf]).1.getD 0 0))))
    ∧ (([FVal.fin 2, FVal.inf] : List FVal)[0]? = some FVal.inf →
        (compute_ema_losses (fun o t => o + t) [3, 5] (1 : ℚ)
          [FVal.fin 2, FVal.inf]).2[0]?
          = some (FVal.fin ((compute_ema_losses (fun o t => o + t) [3, 5] (1 : ℚ)
              [FVal.fin 2, FVal.inf]).1.getD 0 0)))
    ∧ ∃ y, (compute_ema_losses (fun o t => o + t) [3, 5] (1 : ℚ)
        [FVal.fin 2, FVal.inf]).2[0]? = some (FVal.fin y)) :=
  compute_ema_losses_spec (fun o t => o + t) [3, 5] (1 : ℚ)
    [FVal.fin 2, FVal.inf] 0 (by decide) (by decide)

/-- Claim C5, counterexample: at `num_batches = 1`, `test_every = 1500`,
iteration `i = 0` lies in `[0, num_batches)`, satisfies `i % test_every = 0`
and is the final iteration `num_batches - 1`, so the claim demands an
evaluation there; but the guard `i != 0 and ...` on line 280 is false, and
the iteration runs neither the sampling check nor the bits-per-byte
evaluation — the final iteration of a 1-batch run is never evaluated. -/
theorem runsEval_claim_false_at_zero :
    (0 % 1500 = 0 ∧ 0 = 1 - 1 ∧ 0 < 1)
    ∧ runsEval 1 1500 0 = false
    ∧ evalCalls 1 1500 0 = (0, 0) := by decide

/-- Claim C5 as amended: iteration `i` runs the qualitative sampling check
once and the bits-per-byte evaluation once exactly when `i ≠ 0` and
(`i % test_every = 0` or `i` is the final iteration); iteration 0 is always
skipped, so the final iteration is evaluated only when `num_batches ≥ 2`,
and every iteration runs each check either once or not at all. -/
theorem runsEval_amended (num_batches test_every i : ℕ) :
    (evalCalls num_batches test_every i = (1, 1)
      ↔ i ≠ 0 ∧ (i % test_every = 0 ∨ i = num_batches - 1))
    ∧ (evalCalls num_batches test_every i = (1, 1)
      ∨ evalCalls num_batches test_every i = (0, 0))
    ∧ (2 ≤ num_batches → evalCalls num_batches test_every (num_batches - 1) = (1, 1)) := by
  refine ⟨?_, ?_, ?_⟩
  · unfold evalCalls runsEval
    by_cases h0 : i = 0
    · simp [h0]
    · by_cases hc : i % test_every = 0 ∨ i = num_batches - 1
      · rcases hc with hc | hc <;> simp [h0, hc]
      · push_neg at hc
        simp [h0, hc.1, hc.2]
  · unfold evalCalls
    by_cases h : runsEval num_batches test_every i
    · exact Or.inl (by simp [h])
    · exact Or.inr (by simp [h])
  · intro h2
    have h0 : num_batches - 1 ≠ 0 := by omega
    unfold evalCalls runsEval
    simp [h0]

theorem runsEval_amended_witness :
    ((evalCalls 5 2 4 = (1, 1) ↔ 4 ≠ 0 ∧ (4 % 2 = 0 ∨ 4 = 5 - 1))
    ∧ (evalCalls 5 2 4 = (1, 1) ∨ evalCalls 5 2 4 = (0, 0))
    ∧ (2 ≤ 5 → evalCalls 5 2 (5 - 1) = (1, 1))) :=
  runsEval_amended 5 2 4

/-- Claim C8: iterating `ema_update` against a constant loss `L` keeps every
iterate within `[min x L, max x L]`, contracts the distance to `L` by the
factor `beta = 99/100` at every step, and hence converges toward `L`
geometrically. -/
theorem ema_iter_converges (x L : ℚ) (n : ℕ) :
    (min x L ≤ emaIter x L n ∧ emaIter x L n ≤ max x L)
    ∧ |ema_update (emaIter x L n) L - L| ≤ 99 / 100 * |emaIter x L n - L|
    ∧ |emaIter x L n - L| ≤ (99 / 100) ^ n * |x - L| := by
  have hcontract : ∀ y : ℚ, |ema_update y L - L| ≤ 99 / 100 * |y - L| := by
    intro y
    rw [ema_update_sub, abs_mul]
    have : |(99 / 100 : ℚ)| = 99 / 100 := by norm_num
    rw [this]
  induction n with
  | zero =>
    refine ⟨⟨min_le_left x L, le_max_left x L⟩, hcontract x, ?_⟩
    simp [emaIter]
  | succ n ih =>
    obtain ⟨⟨hlo, hhi⟩, hc, hgeo⟩ := ih
    have hstep : emaIter x L (n + 1) = ema_update (emaIter x L n) L := rfl
    have hmem := ema_update_between (min x L) (max x L) (emaIter x L n) L
      hlo hhi (min_le_right x L) (le_max_right x L)
    refine ⟨by rw [hstep]; exact hmem, by rw [hstep]; exact hcontract _, ?_⟩
    rw [hstep]
    calc |ema_update (emaIter x L n) L - L|
        ≤ 99 / 100 * |emaIter x L n - L| := hcontract _
      _ ≤ 99 / 100 * ((99 / 100) ^ n * |x - L|) := by
          have h99 : (0 : ℚ) ≤ 99 / 100 := by norm_num
          exact mul_le_mul_of_nonneg_left hgeo h99
      _ = (99 / 100) ^ (n + 1) * |x - L| := by ring

/-- Claim C2: under the preconditions `length + 1 < len(data)` and every
start drawn by `torch.randint` lying below `len(data) - length - 1`, every
row `r` and column `c < length` of the returned pair satisfies
`target[r][c] = data[start_r + c + 1]`, `input[r][c] = data[start_r + c]`,
`start_r + length < len(data)`, and every access stays inside
`[0, len(data))`. -/
theorem sample_batch_spec (data : List ℕ) (length : ℕ) (starts : List ℕ)
    (hlen : length + 1 < data.length)
    (hs : ∀ s ∈ starts, s < data.length - length - 1)
    (r c : ℕ) (hr : r < starts.length) (hc : c < length) :
    ((sample_batch data length starts).2.getD r [])[c]?
      = data[starts.getD r 0 + c + 1]?
    ∧ ((sample_batch data length starts).1.getD r [])[c]?
      = data[starts.getD r 0 + c]?
    ∧ starts.getD r 0 + length < data.length
    ∧ starts.getD r 0 + c + 1 < data.length := by
  have hsr : starts.getD r 0 = starts[r] := List.getD_eq_getElem starts 0 hr
  have hmem : starts[r] ∈ starts := List.getElem_mem hr
  have hlt : starts[r] < data.length - length - 1 := hs _ hmem
  have hbound : starts[r] + length + 1 < data.length := by omega
  have hrow2 : (sample_batch data length starts).2.getD r []
      = pySlice data (starts[r] + 1) (starts[r] + length + 1) := by
    unfold sample_batch
    have hr2 : r < (starts.map (fun s => pySlice data (s + 1) (s + length + 1))).length := by
      simpa using hr
    rw [List.getD_eq_getElem _ _ hr2]
    simp
  have hrow1 : (sample_batch data length starts).1.getD r []
      = pySlice data starts[r] (starts[r] + length) := by
    unfold sample_batch
    have hr1 : r < (starts.map (fun s => pySlice data s (s + length))).length := by
      simpa using hr
    rw [List.getD_eq_getElem _ _ hr1]
    simp
  refine ⟨?_, ?_, ?_, ?_⟩
  · rw [hrow2, hsr]
    have heq : starts[r] + length + 1 = (starts[r] + 1) + length := by omega
    rw [heq, pySlice_getElem data (starts[r] + 1) length c hc]
    have heq2 : starts[r] + 1 + c = starts[r] + c + 1 := by omega
    rw [heq2]
  · rw [hrow1, hsr]
    exact pySlice_getElem data starts[r] length c hc
  · rw [hsr]; omega
  · rw [hsr]; omega

theorem sample_batch_spec_witness :
    (((sample_batch [10, 11, 12, 13, 14] 2 [1]).2.getD 0 [])[0]?
      = [10, 11, 12, 13, 14][([1] : List ℕ).getD 0 0 + 0 + 1]?
    ∧ ((sample_batch [10, 11, 12, 13, 14] 2 [1]).1.getD 0 [])[0]?
      = [10, 11, 12, 13, 14][([1] : List ℕ).getD 0 0 + 0]?
    ∧ ([1] : List ℕ).getD 0 0 + 2 < ([10, 11, 12, 13, 14] : List ℕ).length
    ∧ ([1] : List ℕ).getD 0 0 + 0 + 1 < ([10, 11, 12, 13, 14] : List ℕ).length) :=
  sample_batch_spec [10, 11, 12, 13, 14] 2 [1] (by decide)
    (by decide) 0 0 (by decide) (by decide)

/-- Claim C9: `sample_sequence` never mutates the seed buffer: every tensor
operation it performs (`detach().clone()`, `torch.cat`) allocates a fresh
buffer, so for every valid seed buffer id the seed's token contents after
the call equal its contents before the call. -/
theorem sample_sequence_frame (modelOut : Buf → List ℚ) (e : ℚ → ℚ)
    (draw : List ℚ → ℕ) (h : Heap) (seedId max_context length : ℕ)
    (temperature : ℚ) (hseed : seedId < h.length) :
    heapGet (sample_sequence modelOut e draw h seedId max_context
      length temperature).1 seedId = heapGet h seedId := by
  have hclone : h <+: (detachClone h seedId).1 := ⟨_, rfl⟩
  have hloop : (detachClone h seedId).1
      <+: (sampleSeqLoop modelOut e draw max_context temperature length
        (detachClone h seedId).1 (detachClone h seedId).2).1 :=
    sampleSeqLoop_prefix modelOut e draw max_context temperature length _ _
  exact heapGet_of_prefix h _ (List.IsPrefix.trans hclone hloop) seedId hseed

theorem sample_sequence_frame_witness :
    heapGet (sample_sequence (fun _ => [1]) id (fun _ => 0) [[7, 8]] 0 2 3 0).1 0
      = heapGet [[7, 8]] 0 :=
  sample_sequence_frame (fun _ => [1]) id (fun _ => 0) [[7, 8]] 0 2 3 0 (by decide)

/-- Claim C1: `sample_sequence` returns the seed buffer itself (line 119
returns `seed`, not `sequence`), not the seed followed by the sampled
continuation.  At the concrete input below (singleton-vocabulary model, seed
buffer `[7]`, `max_context = 1`, `length = 1`, temperature 0) the returned
buffer holds `[7]`, while the grown sequence `[7, 0]` — seed plus the one
sampled token — sits in a different, unreturned buffer.  This contradicts
both the claim and the source's own docstring (line 89: "return: The sampled
sequence, including the seed"). -/
theorem sample_sequence_returns_seed_only :
    heapGet (sample_sequence (fun _ => [1]) id (fun _ => 0) [[7]] 0 1 1 0).1
        (sample_sequence (fun _ => [1]) id (fun _ => 0) [[7]] 0 1 1 0).2 = [7]
    ∧ heapGet (sample_sequence (fun _ => [1]) id (fun _ => 0) [[7]] 0 1 1 0).1
        (sample_sequence (fun _ => [1]) id (fun _ => 0) [[7]] 0 1 1 0).2 ≠ [7, 0]
    ∧ heapGet (sample_sequence (fun _ => [1]) id (fun _ => 0) [[7]] 0 1 1 0).1 2
        = [7, 0] := by
  refine ⟨rfl, by decide, rfl⟩

/-- Claim C6, counterexample: two runs with the same explicit seed `1` but
different system-entropy states of Python's `random` generator (which
`torch.manual_seed` does not touch and the program never seeds) draw
different evaluation-seed indices, so it is false that all randomness comes
from one source seeded once at start and that two same-seed runs draw
identical random values: the evaluation-seed index is drawn from a second,
never-seeded generator. -/
theorem rng_same_seed_divergence :
    evalSeedIndex (setupRand (fun s n => s + n) 1 (fun _ => 0) (fun _ => 0)) 9 = 0
    ∧ evalSeedIndex (setupRand (fun s n => s + n) 1 (fun _ => 0) (fun _ => 1)) 9 = 1
    ∧ seededAtStart 1 evalSeedIndexSource = false
    ∧ evalSeedIndexSource ∈ loopDrawSources
    ∧ ¬ (∀ src ∈ loopDrawSources, seededAtStart 1 src = true) := by decide

/-- Claim C6 as amended: the loop consumes two distinct process-wide
generators — batch start offsets and categorical sampling come from the
torch generator, the evaluation-seed index from Python's `random` generator.
With an explicit seed `s ≥ 0`, `torch.manual_seed(s)` installs a torch
stream depending only on `s`, so the torch-drawn values of two same-seed
runs coincide; Python's generator is never seeded by the program, so it
keeps its system-entropy state in every run. -/
theorem rng_amended (torchGen : ℕ → ℕ → ℕ) (s : ℤ) (hs : 0 ≤ s)
    (e1 e2 p1 p2 : ℕ → ℕ) :
    (setupRand torchGen s e1 p1).torchStream
      = (setupRand torchGen s e2 p2).torchStream
    ∧ firstBatchStart (setupRand torchGen s e1 p1) 100
      = firstBatchStart (setupRand torchGen s e2 p2) 100
    ∧ (setupRand torchGen s e1 p1).pyStream = p1
    ∧ seededAtStart s RngSource.torchRng = true
    ∧ seededAtStart s RngSource.pyRandom = false
    ∧ batchStartsSource = RngSource.torchRng
    ∧ categoricalSource = RngSource.torchRng
    ∧ evalSeedIndexSource = RngSource.pyRandom := by
  refine ⟨?_, ?_, ?_, ?_, rfl, rfl, rfl, rfl⟩
  · simp [setupRand, hs]
  · simp [firstBatchStart, setupRand, hs]
  · simp [setupRand, hs]
  · simp [seededAtStart, hs]

theorem rng_amended_witness :
    ((setupRand (fun s n => s + n) 1 (fun _ => 0) (fun _ => 0)).torchStream
      = (setupRand (fun s n => s + n) 1 (fun _ => 5) (fun _ => 6)).torchStream
    ∧ firstBatchStart (setupRand (fun s n => s + n) 1 (fun _ => 0) (fun _ => 0)) 100
      = firstBatchStart (setupRand (fun s n => s + n) 1 (fun _ => 5) (fun _ => 6)) 100
    ∧ (setupRand (fun s n => s + n) 1 (fun _ => 0) (fun _ => 0)).pyStream = (fun _ => 0)
    ∧ seededAtStart 1 RngSource.torchRng = true
    ∧ seededAtStart 1 RngSource.pyRandom = false
    ∧ batchStartsSource = RngSource.torchRng
    ∧ categoricalSource = RngSource.torchRng
    ∧ evalSeedIndexSource = RngSource.pyRandom) :=
  rng_amended (fun s n => s + n) 1 (by decide) (fun _ => 0) (fun _ => 5)
    (fun _ => 0) (fun _ => 6)
